import Mathlib

/-!
# A verification development for the NumeRe in-memory table engine

Shallow embedding of `src/kernel/core/datamanagement/memory.cpp` (the
`Memory` table class).  Numeric cells (`mu::value_type`, complex doubles
holding real data) are modelled as exact rationals together with an
explicit NaN marker; machine floating point is treated as exact field
arithmetic, and the NaN-propagation of IEEE operations is modelled
explicitly on the marker.  The source file is mid-refactor: part of it
reads the column array `memArray`, part reads the legacy flat array
`dMemTable`.  Both denote the same logical table, and both are mapped to
one cell-access function here.  Collaborator classes that are not part of
the staged sources (`TableColumn`/`ValueColumn`, `VectorIndex`, `Sorter`,
the GSL statistics routines, `intCast`) are modelled from the spec's
description of them; each such definition carries a doc comment saying so.
Wall-clock bookkeeping (`bIsSaved`, `nLastSaved`) is elided: no claim
mentions it and `time(0)` is I/O.
-/

namespace NumeRe

/-- A numeric cell: an exact rational or NaN (`double` values modelled
exactly; the imaginary component of `mu::value_type` is unused by the
claims and elided). -/
inductive MVal where
  | nan : MVal
  | val (x : ℚ) : MVal
deriving DecidableEq

namespace MVal

/-- Models C `isnan`. -/
def isnan : MVal → Bool
  | nan => true
  | val _ => false

/-- IEEE addition with NaN propagation. -/
def add : MVal → MVal → MVal
  | val a, val b => val (a + b)
  | _, _ => nan

/-- IEEE subtraction with NaN propagation. -/
def sub : MVal → MVal → MVal
  | val a, val b => val (a - b)
  | _, _ => nan

/-- IEEE multiplication with NaN propagation. -/
def mul : MVal → MVal → MVal
  | val a, val b => val (a * b)
  | _, _ => nan

/-- IEEE division with NaN propagation.  A zero divisor yields NaN: in the
verified code paths a zero divisor only occurs as `0/0`, which is NaN in
IEEE arithmetic as well (a nonzero dividend over zero, which IEEE maps to
an infinity, is unreachable there). -/
def div : MVal → MVal → MVal
  | val a, val b => if b = 0 then nan else val (a / b)
  | _, _ => nan

instance : Add MVal := ⟨add⟩

instance : Sub MVal := ⟨sub⟩

instance : Mul MVal := ⟨mul⟩

instance : Div MVal := ⟨div⟩

/-- The rational carried by a non-NaN cell (`d` for NaN; used only where
the source has already excluded NaN). -/
def getQ : MVal → ℚ → ℚ
  | nan, d => d
  | val x, _ => x

/-- Models the C comparison `x != 0.0`: true for NaN (IEEE `!=` is true on
unordered operands). -/
def cNe0 : MVal → Bool
  | nan => true
  | val x => x ≠ 0

@[simp] theorem add_val (a b : ℚ) : (val a) + (val b) = val (a + b) := rfl

@[simp] theorem sub_val (a b : ℚ) : (val a) - (val b) = val (a - b) := rfl

@[simp] theorem mul_val (a b : ℚ) : (val a) * (val b) = val (a * b) := rfl

@[simp] theorem div_val (a b : ℚ) :
    (val a) / (val b) = if b = 0 then nan else val (a / b) := rfl

@[simp] theorem isnan_val (a : ℚ) : (val a).isnan = false := rfl

@[simp] theorem isnan_nan : (nan).isnan = true := rfl

@[simp] theorem getQ_val (a d : ℚ) : (val a).getQ d = a := rfl

@[simp] theorem nan_add (v : MVal) : nan + v = nan := rfl

@[simp] theorem add_nan (v : MVal) : v + nan = nan := by cases v <;> rfl

@[simp] theorem nan_sub (v : MVal) : nan - v = nan := rfl

@[simp] theorem sub_nan (v : MVal) : v - nan = nan := by cases v <;> rfl

end MVal

/-- Modelled from the spec: a `ValueColumn` (`tablecolumnimpl.hpp` is not
among the staged sources).  "Column: ordered sequence of cells indexed
from 0; missing = NaN. Length = high-water mark of written cells (cells
beyond it are implicitly absent, not materialized)."  The headline string
plays no role in the claims and is elided. -/
structure Col where
  len : ℕ
  data : ℕ → MVal

namespace Col

/-- A freshly constructed `ValueColumn`: no cells. -/
def emptyCol : Col := ⟨0, fun _ => MVal.nan⟩

/-- Modelled from the spec: `TableColumn::getValue` — a read past the
high-water mark is an absent cell, hence NaN. -/
def getValue (c : Col) (i : ℕ) : MVal :=
  if i < c.len then c.data i else MVal.nan

/-- `getValue` at a signed index: a negative `long long` row converted to
`size_t` addresses far past any column end, hence reads NaN. -/
def getValueZ (c : Col) (i : ℤ) : MVal :=
  if i < 0 then MVal.nan else c.getValue i.toNat

/-- Modelled from the spec: `TableColumn::setValue` — writing NaN past the
high-water mark does not materialize cells ("Length = high-water mark of
written cells"); otherwise the column grows to contain the index, with the
gap filled by NaN. -/
def setValue (c : Col) (i : ℕ) (v : MVal) : Col :=
  if c.len ≤ i ∧ v = MVal.nan then c
  else
    { len := max c.len (i + 1),
      data := fun j => if j = i then v else if j < c.len then c.data j else MVal.nan }

/-- Modelled from the spec: `TableColumn::shrink` compacts the column,
dropping trailing NaN cells (the new length is the highest non-NaN index
plus one). -/
def shrink (c : Col) : Col :=
  { len := (List.range c.len).foldl (fun acc j => if (c.data j).isnan = false then j + 1 else acc) 0,
    data := c.data }

end Col

/-- The error taxonomy surfaced by the embedded operations (`SyntaxError`
codes in the source; only the capacity error is reachable in the embedded
fragment). -/
inductive TblError where
  | tooLargeCache : TblError
deriving DecidableEq

/-- The `Memory` table state: the column array, the cached row count
(`nCalcLines`; `none` models the `-1` invalid-cache sentinel) and the
legacy `bValidData` flag that the statistics code reads.  The saved-flag
and timestamp bookkeeping is elided (see the file header). -/
structure Memory where
  memArray : List (Option Col)
  nCalcLines : Option ℕ
  bValidData : Bool

namespace Memory

/-- A default-constructed `Memory()`: no columns, invalid line cache, no
valid data yet. -/
def empty : Memory := ⟨[], none, false⟩

/-- `std::vector::resize` on the column array: truncate or pad with null
column pointers. -/
def vecResize (l : List (Option Col)) (n : ℕ) : List (Option Col) :=
  l.take n ++ List.replicate (n - l.length) none

/-- `Memory::Allocate` (memory.cpp:87): above `MAX_TABLE_COLS` (`1e4`)
throws `TOO_LARGE_CACHE`; otherwise the column array is resized to exactly
the requested count, and with `shrink` every existing column is
compacted. -/
def Allocate (m : Memory) (nNCols : ℕ) (shrink : Bool) : Except TblError Memory :=
  if 10000 < nNCols then .error .tooLargeCache
  else
    let arr := vecResize m.memArray nNCols
    let arr := if shrink then arr.map (fun oc => oc.map Col.shrink) else arr
    .ok { m with memArray := arr }

/-- `Memory::resizeMemory` (memory.cpp:162): delegates to `Allocate` (the
line count is ignored there). -/
def resizeMemory (m : Memory) (_nLines nCols : ℕ) : Except TblError Memory :=
  m.Allocate nCols false

/-- `Memory::getCols` (memory.cpp:182): the column count, regardless of
the `_bFull` flag. -/
def getCols (m : Memory) (_bFull : Bool) : ℕ :=
  m.memArray.length

/-- The scan `getLines` performs on a cache miss: the maximum column
size. -/
def calcLines (m : Memory) : ℕ :=
  m.memArray.foldl (fun r oc => match oc with | some c => max r c.len | none => r) 0

/-- `Memory::getLines` (memory.cpp:199): 0 for a table without columns,
else the cached count if the cache is valid, else the maximum column
size. -/
def getLines (m : Memory) (_bFull : Bool) : ℕ :=
  if m.memArray.length ≠ 0 then
    match m.nCalcLines with
    | some n => n
    | none => m.calcLines
  else 0

/-- `Memory::readMem(size_t, size_t)` (memory.cpp:255): NaN unless the
column exists and is materialized. -/
def readMem (m : Memory) (nLine nCol : ℕ) : MVal :=
  match m.memArray.getD nCol none with
  | some c => c.getValue nLine
  | none => MVal.nan

/-- `Memory::writeData(size_t, size_t, value)` (memory.cpp:688): NaN into
a wholly empty table is a no-op; otherwise the column array grows to
contain the target column (which may fail on the column cap), the column
is materialized, the cell is written, and the line-count cache is
invalidated whenever the write is NaN or lands at/above the cached
count. -/
def writeData (m : Memory) (nLine nCol : ℕ) (dData : MVal) : Except TblError Memory :=
  if m.memArray.length = 0 ∧ dData = MVal.nan then .ok m
  else
    match (if m.memArray.length ≤ nCol then m.resizeMemory (nLine + 1) (nCol + 1) else .ok m) with
    | .error e => .error e
    | .ok m1 =>
      let c := match m1.memArray.getD nCol none with
        | some c => c
        | none => Col.emptyCol
      let arr := m1.memArray.set nCol (some (c.setValue nLine dData))
      let cache := match m1.nCalcLines with
        | none => none
        | some n => if dData = MVal.nan ∨ n ≤ nLine then none else some n
      .ok { m1 with memArray := arr, nCalcLines := cache }

/-- Total variant of `writeData`: the unchanged table on error. -/
def writeDataT (m : Memory) (nLine nCol : ℕ) (dData : MVal) : Memory :=
  match m.writeData nLine nCol dData with
  | .ok m' => m'
  | .error _ => m

/-- Total variant of `Allocate`: the unchanged table on error. -/
def AllocateT (m : Memory) (n : ℕ) (s : Bool) : Memory :=
  match m.Allocate n s with
  | .ok m' => m'
  | .error _ => m

/-- The total logical cell count of the table (the quantity the spec's
`1e8` cap speaks about): logical lines times columns. -/
def cellCount (m : Memory) : ℕ :=
  m.getLines false * m.getCols false

end Memory

end NumeRe

namespace NumeRe

namespace Col

@[simp] theorem getValue_setValue (c : Col) (i : ℕ) (v : MVal) :
    (c.setValue i v).getValue i = v := by
  unfold setValue getValue
  by_cases h : c.len ≤ i ∧ v = MVal.nan
  · simp only [if_pos h]
    rw [if_neg (by omega), h.2]
  · rw [if_neg h]
    simp [show i < max c.len (i + 1) by omega]

end Col

namespace Memory

@[simp] theorem length_vecResize (l : List (Option Col)) (n : ℕ) :
    (vecResize l n).length = n := by
  simp [vecResize]
  omega

theorem getD_set_self (l : List (Option Col)) (i : ℕ) (a d : Option Col)
    (h : i < l.length) : (l.set i a).getD i d = a := by
  simp [List.getD_eq_getElem?_getD, List.getElem?_set_self', h]

end Memory

open Memory in
/-- C1: for every cell position and value, `writeData` followed by
`readMem` of the same cell returns the written value; writing NaN into a
wholly empty table is a no-op that leaves the table empty (`getLines
false` and `getCols false` remain 0); and on an empty table
`writeData(0,0,5)` yields `getLines(false) = 1`, `getCols(false) = 1`,
`readMem(0,0) = 5`. -/
theorem writeData_then_readMem (m m' : Memory) (line col : ℕ) (v : MVal)
    (h : m.writeData line col v = .ok m') :
    m'.readMem line col = v ∧
    (m.getCols false = 0 → v = MVal.nan →
      m' = m ∧ m'.getLines false = 0 ∧ m'.getCols false = 0) ∧
    ((Memory.empty.writeDataT 0 0 (MVal.val 5)).getLines false = 1 ∧
      (Memory.empty.writeDataT 0 0 (MVal.val 5)).getCols false = 1 ∧
      (Memory.empty.writeDataT 0 0 (MVal.val 5)).readMem 0 0 = MVal.val 5) := by
  refine ⟨?_, ?_, by decide⟩
  · unfold writeData at h
    by_cases h0 : m.memArray.length = 0 ∧ v = MVal.nan
    · rw [if_pos h0] at h
      obtain rfl : m = m' := by injection h
      have harr : m.memArray = [] := List.length_eq_zero.mp h0.1
      rw [h0.2]
      simp [readMem, harr]
    · rw [if_neg h0] at h
      by_cases hle : m.memArray.length ≤ col
      · rw [if_pos hle] at h
        unfold resizeMemory Allocate at h
        by_cases hcap : 10000 < col + 1
        · rw [if_pos hcap] at h
          exact absurd h (by simp)
        · rw [if_neg hcap] at h
          simp only [if_neg (Bool.false_ne_true), Bool.ite_eq_false_distrib] at h
          injection h with h
          subst h
          simp only [readMem]
          rw [getD_set_self _ _ _ _ (by simp)]
          exact Col.getValue_setValue _ _ _
      · rw [if_neg hle] at h
        injection h with h
        subst h
        simp only [readMem]
        rw [getD_set_self _ _ _ _ (by omega)]
        exact Col.getValue_setValue _ _ _
  · intro h1 h2
    unfold writeData at h
    have h1' : m.memArray.length = 0 := h1
    rw [if_pos ⟨h1', h2⟩] at h
    obtain rfl : m = m' := by injection h
    have harr : m.memArray = [] := List.length_eq_zero.mp h1'
    exact ⟨rfl, by simp [getLines, harr], h1⟩

open Memory in
/-- Witness for C1 at a concrete input: `writeData(0,0,5)` on the empty
table succeeds, and the theorem's conclusions hold there. -/
theorem writeData_then_readMem_witness :
    (Memory.empty.writeDataT 0 0 (MVal.val 5)).readMem 0 0 = MVal.val 5 :=
  (writeData_then_readMem Memory.empty (Memory.empty.writeDataT 0 0 (MVal.val 5))
    0 0 (MVal.val 5) rfl).1

open Memory in
/-- Counterexample for C3: `Allocate` uses `std::vector::resize`, which
does shrink; `Allocate(3)` followed by `Allocate(1, shrink=false)` leaves
the column count at 1, not 3. -/
theorem Allocate_shrinks_cx :
    ((Memory.empty.AllocateT 3 false).AllocateT 1 false).getCols false = 1 ∧
    (Memory.empty.AllocateT 3 false).getCols false = 3 := by
  decide

open Memory in
/-- C3 (amended): `Allocate(n)` with `n` at or below the column cap
succeeds and sets the column count to exactly `n` — growing or shrinking
as needed, never keeping a larger previous count. -/
theorem Allocate_sets_exact_cols (m : Memory) (n : ℕ) (sh : Bool) (h : n ≤ 10000) :
    ∃ m', m.Allocate n sh = .ok m' ∧ m'.getCols false = n := by
  unfold Allocate
  rw [if_neg (by omega : ¬ 10000 < n)]
  exact ⟨_, rfl, by cases sh <;> simp [getCols]⟩

open Memory in
/-- Witness for C3 (amended) at a concrete input: `Allocate(3)` on the
empty table yields exactly 3 columns. -/
theorem Allocate_sets_exact_cols_witness :
    3 ≤ 10000 ∧ ∃ m', Memory.empty.Allocate 3 false = .ok m' ∧ m'.getCols false = 3 :=
  ⟨by decide, Allocate_sets_exact_cols Memory.empty 3 false (by decide)⟩

open Memory in
/-- Counterexample for C6: the `1e8` total-cell cap (`MAX_TABLE_SIZE`) is
defined but never checked; a single `writeData` grows an empty table to
`100000001` logical cells without any error. -/
theorem cell_cap_unchecked_cx :
    (Memory.empty.writeData 100000000 0 (MVal.val 5)).isOk = true ∧
    100000000 < (Memory.empty.writeDataT 100000000 0 (MVal.val 5)).cellCount := by
  constructor
  · decide
  · show 100000000 < Memory.cellCount _
    have : (Memory.empty.writeDataT 100000000 0 (MVal.val 5)).cellCount = 100000001 := by
      decide
    omega

open Memory in
/-- C6 (amended): only the column cap is enforced.  `Allocate` beyond
10000 columns fails with the capacity error, a successful `writeData`
keeps the column count at or below 10000, and a `writeData` that would
have to grow the column array beyond the cap fails with the capacity
error.  The `1e8` cell cap is not enforced by any embedded operation. -/
theorem only_column_cap_enforced (m : Memory) (n : ℕ) (sh : Bool) (hn : 10000 < n) :
    m.Allocate n sh = .error .tooLargeCache ∧
    (∀ l c v m', m.getCols false ≤ 10000 → m.writeData l c v = .ok m' →
      m'.getCols false ≤ 10000) ∧
    (∀ l c v, m.getCols false ≤ c → 10000 ≤ c → ¬(m.getCols false = 0 ∧ v = MVal.nan) →
      m.writeData l c v = .error .tooLargeCache) := by
  refine ⟨by simp [Allocate, hn], ?_, ?_⟩
  · intro l c v m' hcols h
    unfold writeData at h
    by_cases h0 : m.memArray.length = 0 ∧ v = MVal.nan
    · rw [if_pos h0] at h
      obtain rfl : m = m' := by injection h
      exact hcols
    · rw [if_neg h0] at h
      by_cases hle : m.memArray.length ≤ c
      · rw [if_pos hle] at h
        unfold resizeMemory Allocate at h
        by_cases hcap : 10000 < c + 1
        · rw [if_pos hcap] at h
          exact absurd h (by simp)
        · rw [if_neg hcap] at h
          simp only [if_neg (Bool.false_ne_true)] at h
          injection h with h
          subst h
          show (List.set _ _ _).length ≤ 10000
          rw [List.length_set, length_vecResize]
          omega
      · rw [if_neg hle] at h
        injection h with h
        subst h
        show (List.set _ _ _).length ≤ 10000
        rw [List.length_set]
        exact hcols
  · intro l c v hle hc h0
    unfold writeData
    have h0' : ¬(m.memArray.length = 0 ∧ v = MVal.nan) := h0
    have hle' : m.memArray.length ≤ c := hle
    rw [if_neg h0', if_pos hle']
    unfold resizeMemory Allocate
    rw [if_pos (by omega : 10000 < c + 1)]

open Memory in
/-- Witness for C6 (amended) at a concrete input: `Allocate(10001)` on
the empty table fails with the capacity error (and the other conjuncts
hold there). -/
theorem only_column_cap_enforced_witness :
    10000 < 10001 ∧ Memory.empty.Allocate 10001 false = .error .tooLargeCache :=
  ⟨by decide, (only_column_cap_enforced Memory.empty 10001 false (by decide)).1⟩

namespace Memory

/-- One cell read at signed coordinates.  This is the loop body of
`Memory::readMem(VectorIndex, VectorIndex)` (memory.cpp:361): NaN for a
column index that is negative, at/past the column count, or an
unmaterialized column, else `getValue` on the addressed line.  The same
function also models the legacy flat accesses `dMemTable[i][j]` that the
statistics/sort/retouch code performs (the file is mid-refactor; both
views denote the same logical cell, with reads outside the materialized
area yielding NaN). -/
def cellOf (m : Memory) (i j : ℤ) : MVal :=
  if j < 0 ∨ (m.memArray.length : ℤ) ≤ j then MVal.nan
  else
    match m.memArray.getD j.toNat none with
    | none => MVal.nan
    | some c => c.getValueZ i

/-- `Memory::readMem(VectorIndex, VectorIndex)` (memory.cpp:349): a single
NaN when both selections have several entries or the table has no
columns, else the row-major flattening of the selection.  `VectorIndex`
is modelled from the spec as the resolved list of signed indices (open
ends resolve before iterating). -/
def readMemV (m : Memory) (vLine vCol : List ℤ) : List MVal :=
  if (1 < vLine.length ∧ 1 < vCol.length) ∨ m.memArray.length = 0 then [MVal.nan]
  else (vLine.map (fun i => vCol.map (fun j => m.cellOf i j))).flatten

end Memory

open Memory in
/-- Counterexample for C7: on a table with no columns the block read
returns the single NaN sentinel even when at most one selection has
several entries, so its length is 1 rather than `lines.size() *
cols.size()` (= 3 here). -/
theorem readMemV_empty_table_cx :
    (Memory.empty.readMemV [0] [0, 1, 2]).length ≠
      ([0] : List ℤ).length * ([0, 1, 2] : List ℤ).length := by
  decide

theorem getD_map_lt {α β : Type} [Inhabited α] (f : α → β) (l : List α) (b : ℕ)
    (hb : b < l.length) (d : β) : (l.map f).getD b d = f (l.getD b default) := by
  rw [List.getD_eq_getElem?_getD, List.getElem?_map, List.getD_eq_getElem?_getD]
  rw [List.getElem?_eq_getElem hb]
  simp

open Memory in
/-- C7 (amended): `readMem(lines, cols)` returns the one-element NaN
sequence when both selections have more than one entry *or the table has
no columns at all*; in every other case it is the row-major flattening of
the selection, of length `lines.size()*cols.size()`, where every invalid
coordinate reads as NaN (`cellOf`). -/
theorem readMemV_flattening (m : Memory) (ls cs : List ℤ) :
    (((1 < ls.length ∧ 1 < cs.length) ∨ m.memArray.length = 0) →
      m.readMemV ls cs = [MVal.nan]) ∧
    (¬((1 < ls.length ∧ 1 < cs.length) ∨ m.memArray.length = 0) →
      (m.readMemV ls cs).length = ls.length * cs.length ∧
      ∀ a b : ℕ, a < ls.length → b < cs.length →
        (m.readMemV ls cs).getD (a * cs.length + b) MVal.nan =
          m.cellOf (ls.getD a 0) (cs.getD b 0)) := by
  constructor
  · intro h
    unfold readMemV
    rw [if_pos h]
  · intro h
    unfold readMemV
    rw [if_neg h]
    clear h
    constructor
    · rw [List.length_flatten]
      simp only [List.map_map]
      induction ls with
      | nil => simp
      | cons i t ih =>
        simp only [List.map_cons, List.sum_cons, List.length_cons, Function.comp,
          List.length_map]
        rw [ih]
        ring
    · induction ls with
      | nil =>
        intro a b ha hb
        simp at ha
      | cons i t ih =>
        intro a b ha hb
        cases a with
        | zero =>
          simp only [List.map_cons, List.flatten_cons, List.getD_cons_zero, Nat.zero_mul,
            Nat.zero_add]
          rw [List.getD_eq_getElem?_getD, List.getElem?_append_left (by simpa using hb),
            ← List.getD_eq_getElem?_getD]
          exact getD_map_lt _ _ _ hb _
        | succ a' =>
          simp only [List.map_cons, List.flatten_cons, List.getD_cons_succ]
          have hlen : (cs.map (fun j => m.cellOf i j)).length = cs.length := by simp
          rw [List.getD_eq_getElem?_getD,
            List.getElem?_append_right (by rw [hlen]; calc
              cs.length ≤ a' * cs.length + cs.length := by omega
              _ = (a' + 1) * cs.length := by ring
              _ ≤ (a' + 1) * cs.length + b := by omega),
            ← List.getD_eq_getElem?_getD]
          have harith : (a' + 1) * cs.length + b - (cs.map (fun j => m.cellOf i j)).length
              = a' * cs.length + b := by
            rw [hlen]; ring_nf; omega
          rw [harith]
          exact ih a' b (by simpa using ha) hb

namespace Memory

/-- The range guard shared by all reductions (e.g. memory.cpp:1412,
1636, 1715): the coordinate is skipped when the row is negative or at/past
`getLines(false)`, or the column negative or at/past `getCols(false)`. -/
def outOfSel (m : Memory) (i j : ℤ) : Prop :=
  i < 0 ∨ (m.getLines false : ℤ) ≤ i ∨ j < 0 ∨ (m.getCols false : ℤ) ≤ j

instance (m : Memory) (i j : ℤ) : Decidable (m.outOfSel i j) := by
  unfold outOfSel
  infer_instance

/-- One row of the NaN-filtered snapshot the reductions see: the
in-range, non-NaN cells of row `i` restricted to the column selection, in
iteration order. -/
def validRow (m : Memory) (i : ℤ) (cs : List ℤ) : List ℚ :=
  cs.filterMap (fun j =>
    if m.outOfSel i j ∨ (m.cellOf i j).isnan = true then none
    else some ((m.cellOf i j).getQ 0))

/-- The NaN-filtered snapshot the reductions see: the in-range, non-NaN
cells of the selection in row-major iteration order (this is the `vData`
collection loop of `med`/`pct`, memory.cpp:2004 and 2055, and the shared
shape of the skip-guards of `sum`/`num`/`std`). -/
def collectValid (m : Memory) (ls cs : List ℤ) : List ℚ :=
  (ls.map (fun i => m.validRow i cs)).flatten

/-- `Memory::sum` (memory.cpp:1580): NaN without valid data, else the
NaN-skipping accumulation of the in-range cells. -/
def sum (m : Memory) (ls cs : List ℤ) : MVal :=
  if m.bValidData = false then MVal.nan
  else ls.foldl (fun acc i => cs.foldl (fun acc j =>
    if m.outOfSel i j then acc
    else if (m.cellOf i j).isnan = true then acc
    else acc + m.cellOf i j) acc) (MVal.val 0)

/-- `Memory::num` (memory.cpp:1620): 0 without valid data, else the
selection size minus the count of out-of-range or NaN entries. -/
def num (m : Memory) (ls cs : List ℤ) : MVal :=
  if m.bValidData = false then MVal.val 0
  else
    MVal.val (((ls.length * cs.length
      - ls.foldl (fun acc i => cs.foldl (fun acc j =>
          if m.outOfSel i j then acc + 1
          else if (m.cellOf i j).isnan = true then acc + 1
          else acc) acc) 0 : ℕ) : ℚ))

/-- `Memory::avg` (memory.cpp:1434): `sum / num` (NaN without valid
data). -/
def avg (m : Memory) (ls cs : List ℤ) : MVal :=
  if m.bValidData = false then MVal.nan
  else m.sum ls cs / m.num ls cs

/-- The argument of the square root in `Memory::std` (memory.cpp:1394):
NaN without valid data, else the accumulated `(avg - x)^2` over the
in-range non-NaN cells, divided by `num - 1`.  The source returns
`sqrt` of this value; the square root is applied in the theorem
statements via `Real.sqrt`. -/
def stdSqArg (m : Memory) (ls cs : List ℤ) : MVal :=
  if m.bValidData = false then MVal.nan
  else
    (ls.foldl (fun acc i => cs.foldl (fun acc j =>
      if m.outOfSel i j then acc
      else if (m.cellOf i j).isnan = true then acc
      else acc + (m.avg ls cs - m.cellOf i j) * (m.avg ls cs - m.cellOf i j)) acc) (MVal.val 0))
    / (m.num ls cs - MVal.val 1)

/-- `Memory::or_func` (memory.cpp:1700): 0 without valid data, else 1 as
soon as some in-range cell satisfies the C test
`isnan(x) || x != 0` (NaN passes: IEEE `!=` is true on NaN), else 0.
The early-return double loop is rendered as `List.any` over the same
row-major iteration. -/
def or_func (m : Memory) (ls cs : List ℤ) : MVal :=
  if m.bValidData = false then MVal.val 0
  else if ls.any (fun i => cs.any (fun j =>
      !(decide (m.outOfSel i j)) && ((m.cellOf i j).isnan || (m.cellOf i j).cNe0)))
    then MVal.val 1
  else MVal.val 0

end Memory

/-- The OR reduction as C5's claim words it: 1.0 exactly when some
in-range, *non-NaN* cell of the selection is nonzero, 0.0 otherwise. -/
def specOr (m : Memory) (ls cs : List ℤ) : MVal :=
  if ls.any (fun i => cs.any (fun j =>
      !(decide (m.outOfSel i j)) && !(m.cellOf i j).isnan && (m.cellOf i j).cNe0))
    then MVal.val 1
  else MVal.val 0

/-- A concrete table for the C5 counterexample: one column of length 2
whose first cell is NaN and second is 7, with `bValidData` set. -/
def mC5 : Memory :=
  ⟨[some ⟨2, fun i => if i = 0 then MVal.nan else MVal.val 7⟩], none, true⟩

open Memory in
/-- Counterexample for C5: the selection row 0, column 0 of `mC5` holds an
in-range NaN cell; `or_func` returns 1.0 for it (the C test
`isnan(x) || x != 0` passes on NaN), while the claim's reading — NaN
cells never count as true — yields 0.0. -/
theorem or_func_counts_nan_cx :
    mC5.or_func [0] [0] = MVal.val 1 ∧ specOr mC5 [0] [0] = MVal.val 0 := by
  decide

theorem cellPred_iff (v : MVal) :
    ((v.isnan || v.cNe0) = true) ↔ (v = MVal.nan ∨ v ≠ MVal.val 0) := by
  cases v with
  | nan => simp
  | val x =>
    simp only [MVal.isnan, MVal.cNe0, Bool.false_or, decide_eq_true_eq]
    constructor
    · intro h
      exact Or.inr (by simpa using h)
    · intro h
      rcases h with h | h
      · exact absurd h (by simp)
      · simpa using h

open Memory in
/-- C5 (amended): `or_func` returns 1.0 exactly when the table has valid
data and at least one in-range cell of the selection is NaN *or* nonzero
(a NaN cell counts as true, since the source tests
`isnan(x) || x != 0`); it returns 0.0 otherwise. -/
theorem or_func_nan_or_nonzero (m : Memory) (ls cs : List ℤ) :
    m.or_func ls cs =
      if m.bValidData = true ∧ ∃ i ∈ ls, ∃ j ∈ cs, ¬ m.outOfSel i j ∧
          (m.cellOf i j = MVal.nan ∨ m.cellOf i j ≠ MVal.val 0)
      then MVal.val 1 else MVal.val 0 := by
  unfold or_func
  by_cases hb : m.bValidData = false
  · rw [if_pos hb, if_neg (by simp [hb])]
  · have hb' : m.bValidData = true := by revert hb; cases m.bValidData <;> simp
    rw [if_neg hb]
    have hiff : (ls.any (fun i => cs.any (fun j =>
        !(decide (m.outOfSel i j)) && ((m.cellOf i j).isnan || (m.cellOf i j).cNe0))) = true)
        ↔ ∃ i ∈ ls, ∃ j ∈ cs, ¬ m.outOfSel i j ∧
          (m.cellOf i j = MVal.nan ∨ m.cellOf i j ≠ MVal.val 0) := by
      simp only [List.any_eq_true, Bool.and_eq_true, Bool.not_eq_true',
        decide_eq_false_iff_not, cellPred_iff]
    by_cases hex : ∃ i ∈ ls, ∃ j ∈ cs, ¬ m.outOfSel i j ∧
        (m.cellOf i j = MVal.nan ∨ m.cellOf i j ≠ MVal.val 0)
    · rw [if_pos (hiff.mpr hex), if_pos ⟨hb', hex⟩]
    · rw [if_neg (fun h => hex (hiff.mp h)), if_neg (fun h => hex h.2)]

namespace Memory

theorem validRow_nil (m : Memory) (i : ℤ) : m.validRow i [] = [] := rfl

theorem validRow_cons (m : Memory) (i j : ℤ) (t : List ℤ) :
    m.validRow i (j :: t) =
      if m.outOfSel i j ∨ (m.cellOf i j).isnan = true then m.validRow i t
      else ((m.cellOf i j).getQ 0) :: m.validRow i t := by
  by_cases h : m.outOfSel i j ∨ (m.cellOf i j).isnan = true
  · rw [if_pos h]
    simp only [validRow, List.filterMap_cons, if_pos h]
  · rw [if_neg h]
    simp only [validRow, List.filterMap_cons, if_neg h]

theorem foldl_row_guarded (m : Memory) (i : ℤ) (cs : List ℤ)
    (F : MVal → MVal → MVal) (g : ℚ → ℚ)
    (hF : ∀ a x, F (MVal.val a) (MVal.val x) = MVal.val (a + g x)) (a : ℚ) :
    cs.foldl (fun acc j =>
      if m.outOfSel i j then acc
      else if (m.cellOf i j).isnan = true then acc
      else F acc (m.cellOf i j)) (MVal.val a)
    = MVal.val (a + ((m.validRow i cs).map g).sum) := by
  induction cs generalizing a with
  | nil => simp [validRow_nil]
  | cons j t ih =>
    rw [List.foldl_cons, validRow_cons]
    by_cases h1 : m.outOfSel i j
    · rw [if_pos h1, if_pos (Or.inl h1)]
      exact ih a
    · by_cases h2 : (m.cellOf i j).isnan = true
      · rw [if_neg h1, if_pos h2, if_pos (Or.inr h2)]
        exact ih a
      · obtain ⟨x, hx⟩ : ∃ x, m.cellOf i j = MVal.val x := by
          cases hc : m.cellOf i j
          · rw [hc] at h2
            simp at h2
          · exact ⟨_, rfl⟩
        rw [if_neg h1, if_neg h2, if_neg (by simp [h1, h2]), hx, hF, ih (a + g x)]
        simp only [hx, MVal.getQ_val, List.map_cons, List.sum_cons, MVal.val.injEq]
        ring

theorem foldl2_guarded (m : Memory) (ls cs : List ℤ)
    (F : MVal → MVal → MVal) (g : ℚ → ℚ)
    (hF : ∀ a x, F (MVal.val a) (MVal.val x) = MVal.val (a + g x)) (a : ℚ) :
    ls.foldl (fun acc i => cs.foldl (fun acc j =>
      if m.outOfSel i j then acc
      else if (m.cellOf i j).isnan = true then acc
      else F acc (m.cellOf i j)) acc) (MVal.val a)
    = MVal.val (a + ((m.collectValid ls cs).map g).sum) := by
  induction ls generalizing a with
  | nil => simp [collectValid]
  | cons i t ih =>
    simp only [List.foldl_cons]
    rw [foldl_row_guarded m i cs F g hF a, ih]
    simp only [collectValid, List.map_cons, List.flatten_cons, List.map_append,
      List.sum_append, MVal.val.injEq]
    ring

theorem foldl_row_invalid (m : Memory) (i : ℤ) (cs : List ℤ) (a : ℕ) :
    cs.foldl (fun acc j =>
      if m.outOfSel i j then acc + 1
      else if (m.cellOf i j).isnan = true then acc + 1
      else acc) a + (m.validRow i cs).length = a + cs.length := by
  induction cs generalizing a with
  | nil => simp [validRow_nil]
  | cons j t ih =>
    rw [List.foldl_cons, validRow_cons]
    by_cases h1 : m.outOfSel i j
    · rw [if_pos h1, if_pos (Or.inl h1)]
      have := ih (a + 1)
      simp only [List.length_cons]
      omega
    · by_cases h2 : (m.cellOf i j).isnan = true
      · rw [if_neg h1, if_pos h2, if_pos (Or.inr h2)]
        have := ih (a + 1)
        simp only [List.length_cons]
        omega
      · rw [if_neg h1, if_neg h2, if_neg (by simp [h1, h2])]
        have := ih a
        simp only [List.length_cons]
        omega

theorem foldl2_invalid (m : Memory) (ls cs : List ℤ) (a : ℕ) :
    ls.foldl (fun acc i => cs.foldl (fun acc j =>
      if m.outOfSel i j then acc + 1
      else if (m.cellOf i j).isnan = true then acc + 1
      else acc) acc) a + (m.collectValid ls cs).length
    = a + ls.length * cs.length := by
  induction ls generalizing a with
  | nil => simp [collectValid]
  | cons i t ih =>
    simp only [List.foldl_cons, collectValid, List.map_cons, List.flatten_cons,
      List.length_append, List.length_cons]
    have h1 := foldl_row_invalid m i cs a
    have h2 := ih (cs.foldl (fun acc j =>
      if m.outOfSel i j then acc + 1
      else if (m.cellOf i j).isnan = true then acc + 1
      else acc) a)
    simp only [collectValid] at h2
    have : (t.length + 1) * cs.length = t.length * cs.length + cs.length := by ring
    omega

theorem num_eq_length (m : Memory) (ls cs : List ℤ) (hb : m.bValidData = true) :
    m.num ls cs = MVal.val ((m.collectValid ls cs).length : ℚ) := by
  unfold num
  rw [if_neg (by simp [hb])]
  have := foldl2_invalid m ls cs 0
  congr 1
  have hlen : ls.length * cs.length
      - ls.foldl (fun acc i => cs.foldl (fun acc j =>
          if m.outOfSel i j then acc + 1
          else if (m.cellOf i j).isnan = true then acc + 1
          else acc) acc) 0 = (m.collectValid ls cs).length := by
    omega
  rw [hlen]

theorem sum_eq_list_sum (m : Memory) (ls cs : List ℤ) (hb : m.bValidData = true) :
    m.sum ls cs = MVal.val ((m.collectValid ls cs).sum) := by
  unfold sum
  rw [if_neg (by simp [hb])]
  have := foldl2_guarded m ls cs (fun acc v => acc + v) id (fun a x => rfl) 0
  rw [this]
  simp

end Memory

/-- The arithmetic mean of a list of rationals (the mean of the valid
cells, in the spec's words). -/
def specMean (xs : List ℚ) : ℚ := xs.sum / (xs.length : ℚ)

/-- The sum of squared deviations from the mean, in the spec's words. -/
def specSSD (xs : List ℚ) : ℚ :=
  (xs.map (fun x => (x - specMean xs) * (x - specMean xs))).sum

/-- The population variance, as claim C4 words the radicand: sum of
squared deviations from the mean divided by N. -/
def specPopVar (xs : List ℚ) : ℚ := specSSD xs / (xs.length : ℚ)

/-- The sample variance: sum of squared deviations from the mean divided
by N - 1 (what `Memory::std` actually puts under the square root). -/
def specSampleVar (xs : List ℚ) : ℚ := specSSD xs / ((xs.length : ℚ) - 1)

namespace Memory

theorem avg_eq_mean (m : Memory) (ls cs : List ℤ) (hb : m.bValidData = true)
    (hne : m.collectValid ls cs ≠ []) :
    m.avg ls cs = MVal.val (specMean (m.collectValid ls cs)) := by
  unfold avg
  rw [if_neg (by simp [hb]), sum_eq_list_sum m ls cs hb, num_eq_length m ls cs hb,
    MVal.div_val, if_neg (by exact_mod_cast List.length_eq_zero.not.mpr hne)]
  rfl

end Memory

theorem stdSqArg_eq_sampleVar (m : Memory) (ls cs : List ℤ) (hb : m.bValidData = true)
    (h2 : 2 ≤ (m.collectValid ls cs).length) :
    m.stdSqArg ls cs = MVal.val (specSampleVar (m.collectValid ls cs)) := by
  have hne : m.collectValid ls cs ≠ [] := by
    intro h
    rw [h] at h2
    simp at h2
  have hμ := Memory.avg_eq_mean m ls cs hb hne
  unfold Memory.stdSqArg
  rw [if_neg (by simp [hb]), hμ, Memory.num_eq_length m ls cs hb]
  rw [Memory.foldl2_guarded m ls cs
    (fun acc v => acc + (MVal.val (specMean (m.collectValid ls cs)) - v)
      * (MVal.val (specMean (m.collectValid ls cs)) - v))
    (fun x => (specMean (m.collectValid ls cs) - x) * (specMean (m.collectValid ls cs) - x))
    (fun a x => by simp) 0]
  rw [MVal.sub_val, MVal.div_val]
  have hN1 : ((m.collectValid ls cs).length : ℚ) - 1 ≠ 0 := by
    have : ((m.collectValid ls cs).length : ℚ) ≠ 1 := by
      exact_mod_cast (by omega : (m.collectValid ls cs).length ≠ 1)
    exact sub_ne_zero.mpr this
  rw [if_neg hN1]
  unfold specSampleVar specSSD
  have hswap : ∀ x : ℚ,
      (specMean (m.collectValid ls cs) - x) * (specMean (m.collectValid ls cs) - x)
      = (x - specMean (m.collectValid ls cs)) * (x - specMean (m.collectValid ls cs)) := by
    intro x
    ring
  simp only [hswap, MVal.val.injEq, zero_add]

open Memory in
/-- C4 (amended): the value under the square root in `Memory::std` is the
*sample* variance of the valid cells — the sum of squared deviations from
their mean divided by N-1, not by N — whenever the selection holds at
least two valid cells; consequently `std` is the sample standard
deviation. -/
theorem std_is_sample_std (m : Memory) (ls cs : List ℤ) (hb : m.bValidData = true)
    (h2 : 2 ≤ (m.collectValid ls cs).length) :
    m.stdSqArg ls cs = MVal.val (specSampleVar (m.collectValid ls cs)) ∧
    Real.sqrt (((m.stdSqArg ls cs).getQ 0 : ℚ) : ℝ)
      = Real.sqrt ((specSampleVar (m.collectValid ls cs) : ℚ) : ℝ) := by
  have hmain := stdSqArg_eq_sampleVar m ls cs hb h2
  exact ⟨hmain, by rw [hmain, MVal.getQ_val]⟩

/-- A concrete table for C4: one column holding the values 0 and 2, with
`bValidData` set.  Its selection `[0,1] x [0]` has mean 1, sum of squared
deviations 2, hence population variance 1 and sample variance 2. -/
def mC4 : Memory :=
  ⟨[some ⟨2, fun i => if i = 0 then MVal.val 0 else MVal.val 2⟩], none, true⟩

open Memory in
/-- Witness for C4 (amended) at a concrete input. -/
theorem std_is_sample_std_witness :
    mC4.bValidData = true ∧ 2 ≤ (mC4.collectValid [0, 1] [0]).length ∧
    mC4.stdSqArg [0, 1] [0] = MVal.val (specSampleVar (mC4.collectValid [0, 1] [0])) :=
  ⟨by decide, by decide, (std_is_sample_std mC4 [0, 1] [0] (by decide) (by decide)).1⟩

open Memory in
/-- Counterexample for C4: on the column holding 0 and 2, the value
`std` returns is `sqrt(2)` (sum of squared deviations 2 divided by
N-1 = 1) while the claim's population reading is `sqrt(1) = 1`. -/
theorem std_not_population_cx :
    Real.sqrt (((mC4.stdSqArg [0, 1] [0]).getQ 0 : ℚ) : ℝ) ≠
      Real.sqrt ((specPopVar (mC4.collectValid [0, 1] [0]) : ℚ) : ℝ) := by
  have hcv : mC4.collectValid [0, 1] [0] = [0, 2] := by decide
  have h1 : mC4.stdSqArg [0, 1] [0] = MVal.val 2 := by
    rw [stdSqArg_eq_sampleVar mC4 [0, 1] [0] (by decide) (by decide), hcv]
    norm_num [specSampleVar, specSSD, specMean]
  have h2 : specPopVar (mC4.collectValid [0, 1] [0]) = 1 := by
    rw [hcv]
    norm_num [specPopVar, specSSD, specMean]
  rw [h1, h2, MVal.getQ_val]
  intro h
  have h2' : ((2 : ℚ) : ℝ) = 2 := by norm_num
  have h1' : ((1 : ℚ) : ℝ) = 1 := by norm_num
  rw [h2', h1', Real.sqrt_one] at h
  have := Real.sqrt_eq_one.mp h
  norm_num at this

/-- Modelled from the GSL documentation:
`gsl_stats_median_from_sorted_data` (called at memory.cpp:2023; GSL is an
external library) — the middle element of the sorted data for odd length,
the mean of the two middle elements for even length.  The callers guard
against empty data. -/
def gslMedianSorted (d : List ℚ) : ℚ :=
  if (d.length - 1) / 2 = d.length / 2 then d.getD ((d.length - 1) / 2) 0
  else (d.getD ((d.length - 1) / 2) 0 + d.getD (d.length / 2) 0) / 2

/-- The C cast `(int)x` on the nonnegative quantile index: with Lean's
Euclidean `/` on `ℤ` and a positive denominator this is exactly
`Int.floor`, which agrees with C truncation for the nonnegative values
that occur. -/
def cTrunc (q : ℚ) : ℤ := q.num / (q.den : ℤ)

/-- Modelled from the GSL documentation:
`gsl_stats_quantile_from_sorted_data` (called at memory.cpp:2075) —
linear interpolation between the order statistics bracketing the index
`f * (n-1)`.  The callers guard against empty data. -/
def gslQuantileSorted (d : List ℚ) (f : ℚ) : ℚ :=
  if (cTrunc (f * ((d.length : ℚ) - 1))).toNat = d.length - 1 then
    d.getD (cTrunc (f * ((d.length : ℚ) - 1))).toNat 0
  else
    (1 - (f * ((d.length : ℚ) - 1) - ((cTrunc (f * ((d.length : ℚ) - 1))).toNat : ℚ)))
        * d.getD (cTrunc (f * ((d.length : ℚ) - 1))).toNat 0
      + (f * ((d.length : ℚ) - 1) - ((cTrunc (f * ((d.length : ℚ) - 1))).toNat : ℚ))
        * d.getD ((cTrunc (f * ((d.length : ℚ) - 1))).toNat + 1) 0

theorem cTrunc_eq_floor (q : ℚ) : cTrunc q = ⌊q⌋ := Rat.floor_def.symm

theorem gsl_quantile_half (d : List ℚ) (hd : d ≠ []) :
    gslQuantileSorted d (1 / 2) = gslMedianSorted d := by
  obtain ⟨k, hk | hk⟩ := Nat.even_or_odd' d.length
  · -- even length: d.length = 2 * k with k ≥ 1
    obtain ⟨j, rfl⟩ : ∃ j, k = j + 1 := by
      have : d.length ≠ 0 := fun h => hd (List.length_eq_zero.mp h)
      cases k with
      | zero => omega
      | succ j => exact ⟨j, rfl⟩
    have hidx : (1 / 2 : ℚ) * ((d.length : ℚ) - 1) = (j : ℚ) + 1 / 2 := by
      rw [hk]
      push_cast
      ring
    have hfloor : (cTrunc ((1 / 2 : ℚ) * ((d.length : ℚ) - 1))).toNat = j := by
      rw [cTrunc_eq_floor, hidx]
      have : ⌊(j : ℚ) + 1 / 2⌋ = (j : ℤ) := by
        rw [Int.floor_eq_iff]
        constructor
        · push_cast
          norm_num
        · push_cast
          norm_num
      rw [this]
      simp
    unfold gslQuantileSorted gslMedianSorted
    rw [hfloor, hidx]
    rw [if_neg (by omega), if_neg (by omega)]
    have h1 : (d.length - 1) / 2 = j := by omega
    have h2 : d.length / 2 = j + 1 := by omega
    rw [h1, h2]
    ring
  · -- odd length: d.length = 2 * k + 1
    have hidx : (1 / 2 : ℚ) * ((d.length : ℚ) - 1) = (k : ℚ) := by
      rw [hk]
      push_cast
      ring
    have hfloor : (cTrunc ((1 / 2 : ℚ) * ((d.length : ℚ) - 1))).toNat = k := by
      rw [cTrunc_eq_floor, hidx]
      rw [Int.floor_natCast]
      simp
    unfold gslQuantileSorted gslMedianSorted
    rw [hfloor, hidx]
    have h1 : (d.length - 1) / 2 = k := by omega
    have h2 : d.length / 2 = k := by omega
    rcases Nat.eq_zero_or_pos k with hk0 | hk0
    · rw [if_pos (by omega), if_pos (by omega), h1]
    · rw [if_neg (by omega), if_pos (by omega), h1]
      ring

namespace Memory

/-- `Memory::med` (memory.cpp:1989): NaN without valid data; the
in-range non-NaN cells are collected, NaN when there are none, else the
GSL median of the ascending sort.  `qSortDouble` (a tool routine outside
the staged sources) is modelled from the spec as an ascending sort
returning the element count — the collected snapshot holds no NaN. -/
def med (m : Memory) (ls cs : List ℤ) : MVal :=
  if m.bValidData = false then MVal.nan
  else if (m.collectValid ls cs).length = 0 then MVal.nan
  else if (List.insertionSort (fun a b : ℚ => a ≤ b) (m.collectValid ls cs)).length = 0 then
    MVal.nan
  else MVal.val (gslMedianSorted (List.insertionSort (fun a b : ℚ => a ≤ b) (m.collectValid ls cs)))

/-- `Memory::pct` (memory.cpp:2037): like `med` with the exclusive
percentile guard `p >= 1 || p <= 0 -> NaN` and the GSL quantile in place
of the median.  The percentile argument is modelled as a finite rational:
a NaN percentile would reach C undefined behaviour (an `(int)` cast of
NaN) and no claim touches it. -/
def pct (m : Memory) (ls cs : List ℤ) (dPct : ℚ) : MVal :=
  if m.bValidData = false then MVal.nan
  else if 1 ≤ dPct ∨ dPct ≤ 0 then MVal.nan
  else if (m.collectValid ls cs).length = 0 then MVal.nan
  else if (List.insertionSort (fun a b : ℚ => a ≤ b) (m.collectValid ls cs)).length = 0 then
    MVal.nan
  else
    MVal.val (gslQuantileSorted
      (List.insertionSort (fun a b : ℚ => a ≤ b) (m.collectValid ls cs)) dPct)

end Memory

open Memory in
/-- C8: for every selection containing at least one valid (non-NaN,
in-range) value, `pct` at p = 0.5 returns the same result as `med` of the
same selection. -/
theorem pct_half_eq_med (m : Memory) (ls cs : List ℤ) (h : m.collectValid ls cs ≠ []) :
    m.pct ls cs (1 / 2) = m.med ls cs := by
  unfold Memory.pct Memory.med
  by_cases hb : m.bValidData = false
  · rw [if_pos hb, if_pos hb]
  · rw [if_neg hb, if_neg hb, if_neg (by norm_num)]
    have hlen : ¬ (m.collectValid ls cs).length = 0 := by
      simpa using List.length_eq_zero.not.mpr h
    have hslen : (List.insertionSort (fun a b : ℚ => a ≤ b) (m.collectValid ls cs)).length
        = (m.collectValid ls cs).length :=
      (List.perm_insertionSort _ _).length_eq
    rw [if_neg hlen, if_neg hlen, if_neg (by rw [hslen]; exact hlen),
      if_neg (by rw [hslen]; exact hlen)]
    exact congrArg MVal.val (gsl_quantile_half _ (by
      intro hnil
      rw [hnil] at hslen
      exact hlen hslen.symm))

open Memory in
/-- Witness for C8 at a concrete input: the column holding 0 and 2. -/
theorem pct_half_eq_med_witness :
    mC4.collectValid [0, 1] [0] ≠ [] ∧ mC4.pct [0, 1] [0] (1 / 2) = mC4.med [0, 1] [0] :=
  ⟨by decide, pct_half_eq_med mC4 [0, 1] [0] (by decide)⟩

namespace Memory

/-- `readMem` at signed coordinates as `readMemInterpolated` calls it: the
`int` neighbour coordinates convert to `size_t`, so a negative index
addresses far past the table and reads NaN. -/
def readMemZ (m : Memory) (i j : ℤ) : MVal :=
  if i < 0 ∨ j < 0 then MVal.nan else m.readMem i.toNat j.toNat

end Memory

/-- The accumulator pass of `nanAvg` (memory.cpp:272): NaN-skipping sum
and count of the values. -/
def nanAvgAcc (values : List MVal) : MVal × ℕ :=
  values.foldl (fun sc v => if v.isnan = false then (sc.1 + v, sc.2 + 1) else sc)
    (MVal.val 0, 0)

/-- `nanAvg` (memory.cpp:272): the average of the non-NaN values; the
plain (zero) sum when every value is NaN. -/
def nanAvg (values : List MVal) : MVal :=
  if (nanAvgAcc values).2 ≠ 0 then
    (nanAvgAcc values).1 / MVal.val (((nanAvgAcc values).2 : ℕ) : ℚ)
  else (nanAvgAcc values).1

/-- Modelled from the spec: NumeRe's `intCast` (a tools routine outside
the staged sources) casts the double to `int` by rounding to the nearest
integer. -/
def intCastQ (q : ℚ) : ℤ := round q

namespace Memory

/-- The non-NaN branch of `Memory::readMemInterpolated`
(memory.cpp:303): base cell below the fractional coordinates, the four
surrounding cells, NaN when all four are NaN, otherwise each NaN
neighbour is replaced by the NaN-aware average before the bilinear
blend. -/
def readMemIpolCore (m : Memory) (l c : ℚ) : MVal :=
  let nBaseLine : ℤ := intCastQ l + (if l < 0 then -1 else 0)
  let nBaseCol : ℤ := intCastQ c + (if c < 0 then -1 else 0)
  let x : ℚ := l - nBaseLine
  let y : ℚ := c - nBaseCol
  let f00 := m.readMemZ nBaseLine nBaseCol
  let f10 := m.readMemZ (nBaseLine + 1) nBaseCol
  let f01 := m.readMemZ nBaseLine (nBaseCol + 1)
  let f11 := m.readMemZ (nBaseLine + 1) (nBaseCol + 1)
  if f00.isnan = true ∧ f01.isnan = true ∧ f10.isnan = true ∧ f11.isnan = true then MVal.nan
  else
    let dNanAvg := nanAvg [f00, f01, f10, f11]
    let g00 := if f00.isnan = true then dNanAvg else f00
    let g10 := if f10.isnan = true then dNanAvg else f10
    let g01 := if f01.isnan = true then dNanAvg else f01
    let g11 := if f11.isnan = true then dNanAvg else f11
    g00 * (MVal.val 1 - MVal.val x) * (MVal.val 1 - MVal.val y)
      + g10 * MVal.val x * (MVal.val 1 - MVal.val y)
      + g01 * (MVal.val 1 - MVal.val x) * MVal.val y
      + g11 * MVal.val x * MVal.val y

/-- `Memory::readMemInterpolated` (memory.cpp:303): NaN immediately when
either fractional coordinate is NaN, before any cell is read; otherwise
the bilinear blend of the four surrounding cells. -/
def readMemInterpolated (m : Memory) (dLine dCol : MVal) : MVal :=
  if dLine.isnan = true ∨ dCol.isnan = true then MVal.nan
  else m.readMemIpolCore (dLine.getQ 0) (dCol.getQ 0)

end Memory

open Memory in
/-- C10: `readMemInterpolated` returns NaN whenever either fractional
coordinate is itself NaN; the guard sits before any cell read, and the
function (a const method, embedded as a pure function) does not modify
the table and throws nothing. -/
theorem readMemInterpolated_nan_guard (m : Memory) (dLine dCol : MVal)
    (h : dLine.isnan = true ∨ dCol.isnan = true) :
    m.readMemInterpolated dLine dCol = MVal.nan := by
  unfold Memory.readMemInterpolated
  rw [if_pos h]

open Memory in
/-- Witness for C10 at a concrete input: a NaN line coordinate on the
empty table. -/
theorem readMemInterpolated_nan_guard_witness :
    (MVal.nan.isnan = true ∨ (MVal.val 0).isnan = true) ∧
    Memory.empty.readMemInterpolated MVal.nan (MVal.val 0) = MVal.nan :=
  ⟨by decide, readMemInterpolated_nan_guard Memory.empty MVal.nan (MVal.val 0) (by decide)⟩

/-- Modelled from the spec: the pre-parsed sorting expression.  Only the
flags the implicit ungrouped path reads are modelled (`findParameter` and
the `cols=`/`c=` key-list machinery live outside the staged sources, so
the grouped hierarchical branch is not embedded). -/
structure SortExpr where
  desc : Bool
  index : Bool

/-- The index list `[a .. b]` the source builds into `vIndex`
(memory.cpp:858). -/
def intRange (a b : ℤ) : List ℤ :=
  (List.range (b + 1 - a).toNat).map (fun t => a + (t : ℤ))

namespace Memory

/-- The key comparison of the modelled `Sorter::qSort`: ascending cell
order for `desc = false`, descending for `desc = true` (`nSign = -1`). -/
def keyOrder (m : Memory) (col : ℤ) (desc : Bool) (r s : ℤ) : Prop :=
  if desc = true then ((m.cellOf s col).getQ 0) ≤ ((m.cellOf r col).getQ 0)
  else ((m.cellOf r col).getQ 0) ≤ ((m.cellOf s col).getQ 0)

instance (m : Memory) (col : ℤ) (desc : Bool) : DecidableRel (m.keyOrder col desc) :=
  fun r s => by
    unfold keyOrder
    infer_instance

/-- Modelled from the spec: `Sorter::qSort` over the index array (the
`Sorter` base class is outside the staged sources).  Rows whose key cell
is NaN are the "invalid values" and are moved behind the valid rows
(spec: "treat NaN as excluded"); the valid rows are ordered by their key
cell (a stable sort).  Row `r`'s key cell is `dMemTable[r][col]`. -/
def qSortModel (m : Memory) (col : ℤ) (desc : Bool) (idx : List ℤ) : List ℤ :=
  List.insertionSort (m.keyOrder col desc)
      (idx.filter (fun r => !(m.cellOf r col).isnan))
    ++ idx.filter (fun r => (m.cellOf r col).isnan)

/-- Raw cell write into the legacy `dMemTable` view: updates column `j`
at row `i`, growing the column's high-water mark when needed (the legacy
view has every row allocated; the fill is NaN).  Writes addressing a
missing column or an out-of-range column index are dropped — in C these
are out-of-bounds array writes, unreachable in the verified paths. -/
def setCell (m : Memory) (i j : ℤ) (v : MVal) : Memory :=
  if 0 ≤ i ∧ 0 ≤ j ∧ j < (m.memArray.length : ℤ) then
    match m.memArray.getD j.toNat none with
    | none => m
    | some c =>
      { m with memArray := (m.memArray.set j.toNat
          (some { len := max c.len (i.toNat + 1),
                  data := fun t =>
                    if t = i.toNat then v
                    else if t < c.len then c.data t else MVal.nan })) }
  else m

/-- `Memory::reorderColumn` (memory.cpp:1012): buffer the column's values
at the rows `vIndex[0..i2-i1]` (read from the table as it was on entry),
then write them back consecutively onto the rows `i1..i2`. -/
def reorderColumn (m : Memory) (vIndex : List ℤ) (i1 i2 j1 : ℤ) : Memory :=
  (List.range (i2 + 1 - i1).toNat).foldl
    (fun mm (t : ℕ) => mm.setCell ((t : ℤ) + i1) j1 (m.cellOf (vIndex.getD t 0) j1)) m

/-- The ungrouped non-index loop of `sortElements` (memory.cpp:871):
every selected column is sorted independently — a fresh index permutation
is computed against the current table, the column reordered, the index
reset.  (The source's in-place reset is exact for `i1 = 0`; for `i1 > 0`
it writes past the index vector — C undefined behaviour — and the model
reinitializes.  The theorems below only exercise `i1 = 0` or single
iterations, where the two agree.) -/
def sortColsLoop (m : Memory) (i1 i2 : ℤ) (desc : Bool) : List ℤ → Memory
  | [] => m
  | j :: rest =>
    sortColsLoop
      (m.reorderColumn (m.qSortModel j desc (intRange i1 i2)) i1 i2 j) i1 i2 desc rest

/-- `Memory::sortElements` (memory.cpp:833) in the implicit ungrouped
mode (no `cols=`/`c=` key).  Yields the resulting table and the returned
vector: the 1-based sorting permutation in index mode (the loop sorts the
first key column and breaks, moving no data), the empty vector otherwise.
`nCalcLines` is invalidated on the way out. -/
def sortElements (m : Memory) (i1 i2 j1 j2 : ℤ) (e : SortExpr) : Memory × List ℤ :=
  if m.memArray.length = 0 then (m, [])
  else if e.index = true then
    ({ m with nCalcLines := none },
      (if max 0 j1 ≤ (if j2 = -1 then max 0 j1 else j2) then
          m.qSortModel (max 0 j1) e.desc
            (intRange (max 0 i1) (if i2 = -1 then max 0 i1 else i2))
        else intRange (max 0 i1) (if i2 = -1 then max 0 i1 else i2)).map (fun t => t + 1))
  else
    ({ (sortColsLoop m (max 0 i1) (if i2 = -1 then max 0 i1 else i2) e.desc
          (intRange (max 0 j1) (if j2 = -1 then max 0 j1 else j2))) with
        nCalcLines := none }, [])

/-- "Permuting the rows per the index-mode result", as claim C9 words
it: for every column, row `i1 + t` of the permuted table receives the
value of row `p[t] - 1` (1-based `p`) of the original table; all other
cells stay. -/
def applyRowPerm (m : Memory) (p : List ℤ) (i1 : ℤ) : Memory :=
  (List.range m.memArray.length).foldl
    (fun mm (j : ℕ) => (List.range p.length).foldl
      (fun mm2 (t : ℕ) => mm2.setCell ((t : ℤ) + i1) (j : ℤ) (m.cellOf (p.getD t 0 - 1) (j : ℤ)))
      mm)
    m

theorem qSortModel_perm (m : Memory) (col : ℤ) (d : Bool) (idx : List ℤ) :
    (m.qSortModel col d idx).Perm idx := by
  unfold qSortModel
  refine ((List.perm_insertionSort _ _).append (List.Perm.refl _)).trans ?_
  have h := List.filter_append_perm (fun r => !(m.cellOf r col).isnan) idx
  have he : idx.filter (fun r => !(!(m.cellOf r col).isnan)) =
      idx.filter (fun r => (m.cellOf r col).isnan) := by
    simp
  rw [he] at h
  exact h

end Memory

/-- A concrete table for the C9 counterexample: column 0 holds `[2, 1]`,
column 1 holds `[1, 2]`. -/
def mC9 : Memory :=
  ⟨[some ⟨2, fun i => if i = 0 then MVal.val 2 else MVal.val 1⟩,
    some ⟨2, fun i => if i = 0 then MVal.val 1 else MVal.val 2⟩], none, true⟩

open Memory in
/-- Counterexample for C9's second half: ungrouped sorting of the block
rows 0-1, columns 0-1 sorts each column independently (cell (0,1) becomes
1), while permuting the rows by the index-mode result of the same
arguments (the permutation sorting column 0) would put 2 there. -/
theorem sort_not_row_perm_cx :
    (mC9.sortElements 0 1 0 1 ⟨false, false⟩).1.cellOf 0 1 ≠
      (Memory.applyRowPerm mC9 ((mC9.sortElements 0 1 0 1 ⟨false, true⟩).2) 0).cellOf 0 1 := by
  decide

theorem intRange_self (a : ℤ) : intRange a a = [a] := by
  unfold intRange
  have h : (a + 1 - a).toNat = 1 := by omega
  rw [h]
  simp [List.range_succ]

namespace Memory

theorem sortElements_index_eq (m : Memory) (i1 i2 j1 j2 : ℤ) (d : Bool)
    (hm : m.memArray.length ≠ 0) :
    m.sortElements i1 i2 j1 j2 ⟨d, true⟩
      = ({ m with nCalcLines := none },
        (if max 0 j1 ≤ (if j2 = -1 then max 0 j1 else j2) then
            m.qSortModel (max 0 j1) d
              (intRange (max 0 i1) (if i2 = -1 then max 0 i1 else i2))
          else intRange (max 0 i1) (if i2 = -1 then max 0 i1 else i2)).map
            (fun t => t + 1)) := by
  unfold sortElements
  rw [if_neg hm]
  rfl

theorem sortElements_noindex_eq (m : Memory) (i1 i2 j1 j2 : ℤ) (d : Bool)
    (hm : m.memArray.length ≠ 0) :
    m.sortElements i1 i2 j1 j2 ⟨d, false⟩
      = ({ (sortColsLoop m (max 0 i1) (if i2 = -1 then max 0 i1 else i2) d
            (intRange (max 0 j1) (if j2 = -1 then max 0 j1 else j2))) with
          nCalcLines := none }, []) := by
  unfold sortElements
  rw [if_neg hm]
  rfl

end Memory

open Memory in
/-- C9 (amended): in index mode `sortElements` leaves every cell of the
table unchanged (the column array is untouched; only the line-count cache
is invalidated) and returns a 1-based permutation of the selected line
range; and for a *single selected column* (`j2 = j1`), `sortElements`
without the index flag rearranges the rows exactly as permuting them by
the index-mode result of the same arguments.  (For several ungrouped
columns each one is full-sorted independently, which a single row
permutation cannot reproduce — see the counterexample.) -/
theorem sortElements_index_spec (m : Memory) (i1 i2 j1 j2 : ℤ) (d : Bool)
    (hm : m.memArray.length ≠ 0) (h1 : 0 ≤ i1) (h2 : i1 ≤ i2) :
    (m.sortElements i1 i2 j1 j2 ⟨d, true⟩).1.memArray = m.memArray ∧
    ((m.sortElements i1 i2 j1 j2 ⟨d, true⟩).2).Perm
      ((intRange i1 i2).map (fun t => t + 1)) ∧
    (0 ≤ j1 →
      (m.sortElements i1 i2 j1 j1 ⟨d, false⟩).1.memArray
        = (m.reorderColumn
            ((m.sortElements i1 i2 j1 j1 ⟨d, true⟩).2.map (fun t => t - 1))
            i1 i2 j1).memArray) := by
  have hI : ¬ i2 = -1 := by omega
  have hA : max 0 i1 = i1 := by omega
  refine ⟨?_, ?_, ?_⟩
  · rw [sortElements_index_eq m i1 i2 j1 j2 d hm]
  · rw [sortElements_index_eq m i1 i2 j1 j2 d hm]
    dsimp only
    rw [hA, if_neg hI]
    refine List.Perm.map _ ?_
    by_cases hj : max 0 j1 ≤ (if j2 = -1 then max 0 j1 else j2)
    · rw [if_pos hj]
      exact qSortModel_perm m (max 0 j1) d (intRange i1 i2)
    · rw [if_neg hj]
  · intro hj1
    have hB : max 0 j1 = j1 := by omega
    have hJ : ¬ j1 = -1 := by omega
    rw [sortElements_noindex_eq m i1 i2 j1 j1 d hm,
      sortElements_index_eq m i1 i2 j1 j1 d hm]
    dsimp only
    rw [hA, hB, if_neg hI, if_neg hJ, intRange_self, if_pos (le_refl j1), List.map_map]
    have hid : ((fun t : ℤ => t - 1) ∘ fun t : ℤ => t + 1) = id := by
      funext t
      simp
    rw [hid, List.map_id]
    simp only [sortColsLoop]

open Memory in
/-- Witness for C9 (amended) at a concrete input. -/
theorem sortElements_index_spec_witness :
    (mC9.memArray.length ≠ 0 ∧ (0 : ℤ) ≤ 0 ∧ (0 : ℤ) ≤ 1) ∧
    (mC9.sortElements 0 1 0 1 ⟨false, true⟩).1.memArray = mC9.memArray :=
  ⟨by decide, (sortElements_index_spec mC9 0 1 0 1 false (by decide) (by decide)
    (by decide)).1⟩

/-- The interior fill of `retouch1D` (memory.cpp:2404, 2453): the NaN run
starts at position `p` (so the preceding valid value sits at `p - 1`) and
the next valid value sits at position `q`; every run position `t`
receives `(xs[q] - xs[p-1]) / (q - p) * (t - p + 1) + xs[p-1]` — note the
divisor `q - p`, the run length, not the anchor distance `q - p + 1`. -/
def fillInterior (xs : List MVal) (p q : ℕ) : List MVal :=
  (List.range xs.length).map (fun t =>
    if p ≤ t ∧ t < q then
      (xs.getD q MVal.nan - xs.getD (p - 1) MVal.nan) / MVal.val ((q - p : ℕ) : ℚ)
          * MVal.val ((t - p + 1 : ℕ) : ℚ)
        + xs.getD (p - 1) MVal.nan
    else xs.getD t MVal.nan)

/-- The leading fill (memory.cpp:2411, 2460): a NaN run starting at
position 0 copies the first following valid value. -/
def fillLeading (xs : List MVal) (p q : ℕ) : List MVal :=
  (List.range xs.length).map (fun t =>
    if p ≤ t ∧ t < q then xs.getD q MVal.nan else xs.getD t MVal.nan)

/-- The trailing fill (memory.cpp:2423, 2472): a NaN run reaching the end
of the selection copies the last preceding valid value. -/
def fillTrailing (xs : List MVal) (p : ℕ) : List MVal :=
  (List.range xs.length).map (fun t =>
    if p ≤ t then xs.getD (p - 1) MVal.nan else xs.getD t MVal.nan)

/-- The inner scan of `retouch1D` starting at the first NaN position `p`
(the `for (_i = i; ...)` loop, memory.cpp:2396-2431 for LINES and
2445-2480 for COLS): walk `k` forward; at the first valid cell fill the
interior run (or the leading run when `p = 0` and the valid cell is not
the last position) and stop; at a NaN in the last position with `p ≠ 0`
fill the trailing run.  `fuel` is the remaining walk length. -/
def retouchScan (xs : List MVal) (p : ℕ) : ℕ → ℕ → List MVal
  | 0, _ => xs
  | fuel + 1, k =>
    if k < xs.length then
      if (xs.getD k MVal.nan).isnan = false then
        if p ≠ 0 then fillInterior xs p k
        else if k + 1 < xs.length then fillLeading xs p k
        else retouchScan xs p fuel (k + 1)
      else if p ≠ 0 ∧ k + 1 = xs.length then fillTrailing xs p
      else retouchScan xs p fuel (k + 1)
    else xs

/-- The outer position loop of `retouch1D` over one series of cells:
at each NaN cell run the inner scan on the current (already partially
filled) series. -/
def retouchSeriesGo : ℕ → List MVal → ℕ → List MVal
  | 0, xs, _ => xs
  | fuel + 1, xs, i =>
    if i < xs.length then
      retouchSeriesGo fuel
        (if (xs.getD i MVal.nan).isnan = true then retouchScan xs i (xs.length - i) i
         else xs) (i + 1)
    else xs

/-- One series (one selected column at the selected rows, or one selected
row at the selected columns) retouched by the `retouch1D` scan. -/
def retouchSeries (xs : List MVal) : List MVal :=
  retouchSeriesGo xs.length xs 0

namespace Memory

/-- `Memory::retouch1D` in the COLS direction (memory.cpp:2437): every
selected column is scanned and filled independently along the selected
rows (the LINES direction is the mirror image along rows).  The scan
reads and writes only the one column and never reads a cell after
writing a different value into it, so the in-place mutation is rendered
as a per-column list transformation written back cell by cell. -/
def retouch1DCols (m : Memory) (vLine vCol : List ℤ) : Memory :=
  vCol.foldl (fun mm j =>
    (List.range vLine.length).foldl
      (fun mm2 (t : ℕ) => mm2.setCell (vLine.getD t 0) j
        ((retouchSeries (vLine.map (fun i => mm.cellOf i j))).getD t MVal.nan)) mm) m

end Memory

/-- The concrete table of the spec's retouch example: one column holding
`[1, NaN, 3]`. -/
def mC2 : Memory :=
  ⟨[some ⟨3, fun i => if i = 0 then MVal.val 1 else if i = 1 then MVal.nan
      else MVal.val 3⟩], none, true⟩

open Memory in
/-- C2, evaluating the code at the failing input: retouching the column
`[1, NaN, 3]` over its full range produces `[1, 3, 3]`, not the
arithmetic progression `[1, 2, 3]` the spec demands — the interior fill
divides by the run length `q - p` instead of the anchor distance
`q - p + 1`, so the cell next to the right anchor already receives the
anchor's value. -/
theorem retouch1D_off_by_one :
    (mC2.retouch1DCols [0, 1, 2] [0]).cellOf 0 0 = MVal.val 1 ∧
    (mC2.retouch1DCols [0, 1, 2] [0]).cellOf 1 0 = MVal.val 3 ∧
    (mC2.retouch1DCols [0, 1, 2] [0]).cellOf 2 0 = MVal.val 3 := by
  have hseries : retouchSeries [MVal.val 1, MVal.nan, MVal.val 3]
      = [MVal.val 1, (MVal.val 3 - MVal.val 1) / MVal.val 1 * MVal.val 1 + MVal.val 1,
          MVal.val 3] := by
    simp [retouchSeries, retouchSeriesGo, retouchScan, fillInterior, List.range_succ]
  have hval : (MVal.val 3 - MVal.val 1) / MVal.val 1 * MVal.val 1 + MVal.val 1
      = MVal.val 3 := by
    norm_num
  rw [hval] at hseries
  have hmap : ([0, 1, 2] : List ℤ).map (fun i => mC2.cellOf i 0)
      = [MVal.val 1, MVal.nan, MVal.val 3] := by
    decide
  refine ⟨?_, ?_, ?_⟩ <;>
    simp [Memory.retouch1DCols, hmap, hseries, List.range_succ, Memory.setCell,
      Memory.cellOf, Col.getValueZ, Col.getValue, mC2]
